import Mathlib

set_option maxRecDepth 10000

/-!
# Verification of pyoauth cryptographic utility modules

Shallow embedding of `pyoauth/crypto/utils/__init__.py`,
`pyoauth/crypto/utils/certificate.py` and the Attribute-Exchange
namespace lookup of `pyoauth/appengine/openid.py`.

Byte strings are modelled as `List Nat` (each entry a byte, `< 256` where
the claims need it); Python text strings are modelled as `List Char`.
Fallible Python code (functions that may raise) returns `Except String α`.
-/

namespace PyOAuth

/-- Big-endian value of a byte string: the number denoted by a byte
sequence read most-significant byte first.  This is the mathematical
reference function used to state value-preservation properties. -/
def beval (s : List Nat) : Nat :=
  s.foldl (fun acc b => acc * 256 + b) 0

/-! ## `bytes_to_long` (pyoauth/crypto/utils/__init__.py, lines 232-254)

The source left-pads the byte string with `'\000'` to a multiple of 4 and
then folds 32-bit big-endian words: `acc = (acc << 32) + unpack('>I', ...)`. -/

/-- The accumulation loop of `bytes_to_long`: consumes the (already padded)
byte string four bytes at a time, `acc = (acc << 32) + word`. -/
def bytes_to_long_aux : List Nat → Nat → Nat
  | a :: b :: c :: d :: rest, acc =>
      bytes_to_long_aux rest (acc * 2 ^ 32 + (((a * 256 + b) * 256 + c) * 256 + d))
  | _, acc => acc

/-- `bytes_to_long(s)`: pads `s` on the left with zero bytes to a multiple
of four, then accumulates 32-bit big-endian words. -/
def bytes_to_long (s : List Nat) : Nat :=
  bytes_to_long_aux (List.replicate ((4 - s.length % 4) % 4) 0 ++ s) 0

/-! ## `long_to_bytes` (pyoauth/crypto/utils/__init__.py, lines 194-229) -/

/-- `struct.pack('>I', n)`: the four big-endian bytes of a 32-bit word. -/
def pack_be32 (n : Nat) : List Nat :=
  [n / 2 ^ 24 % 256, n / 2 ^ 16 % 256, n / 2 ^ 8 % 256, n % 256]

/-- The `while n > 0` loop of `long_to_bytes`:
`s = pack('>I', n & 0xffffffff) + s; n = n >> 32`.  Structural recursion
on a fuel counter so that the definition reduces in the kernel; the fuel
argument is irrelevant whenever it is at least `n`
(`long_to_bytes_loopF_congr`). -/
def long_to_bytes_loopF : Nat → Nat → List Nat
  | _, 0 => []
  | 0, _ + 1 => []
  | fuel + 1, n + 1 =>
      long_to_bytes_loopF fuel ((n + 1) / 2 ^ 32) ++ pack_be32 ((n + 1) % 2 ^ 32)

def long_to_bytes_loop (n : Nat) : List Nat :=
  long_to_bytes_loopF n n

theorem long_to_bytes_loopF_zero (f : Nat) : long_to_bytes_loopF f 0 = [] := by
  cases f <;> rfl

theorem long_to_bytes_loopF_congr :
    ∀ (f1 f2 n : Nat), n ≤ f1 → n ≤ f2 →
      long_to_bytes_loopF f1 n = long_to_bytes_loopF f2 n
  | _, _, 0, _, _ => by rw [long_to_bytes_loopF_zero, long_to_bytes_loopF_zero]
  | g1 + 1, g2 + 1, m + 1, h1, h2 => by
    rw [long_to_bytes_loopF, long_to_bytes_loopF]
    have hdiv : (m + 1) / 2 ^ 32 ≤ m := by
      have := Nat.div_lt_self (show 0 < m + 1 by omega) (show 1 < 2 ^ 32 by norm_num)
      omega
    rw [long_to_bytes_loopF_congr g1 g2 ((m + 1) / 2 ^ 32) (by omega) (by omega)]

theorem long_to_bytes_loop_zero : long_to_bytes_loop 0 = [] := rfl

theorem long_to_bytes_loop_eq (n : Nat) (h : n ≠ 0) :
    long_to_bytes_loop n =
      long_to_bytes_loop (n / 2 ^ 32) ++ pack_be32 (n % 2 ^ 32) := by
  obtain ⟨m, rfl⟩ : ∃ m, n = m + 1 := ⟨n - 1, by omega⟩
  show long_to_bytes_loopF (m + 1) (m + 1) = _
  rw [long_to_bytes_loopF]
  have hdiv : (m + 1) / 2 ^ 32 ≤ m := by
    have := Nat.div_lt_self (show 0 < m + 1 by omega) (show 1 < 2 ^ 32 by norm_num)
    omega
  rw [long_to_bytes_loopF_congr m ((m + 1) / 2 ^ 32) ((m + 1) / 2 ^ 32) (by omega)
    (by omega)]
  rfl

/-- The leading-zero stripping stage of `long_to_bytes`: the
`for i in range(len(s)) ... else: s = '\000'; i = 0` block followed by
`s = s[i:]` — it keeps the suffix from the first nonzero byte, and
produces the single byte `'\000'` when no nonzero byte exists. -/
def strip_or_zero (s : List Nat) : List Nat :=
  if (s.dropWhile (fun b => b == 0)).isEmpty then [0]
  else s.dropWhile (fun b => b == 0)

/-- The padding stage of `long_to_bytes`:
`if blocksize > 0 and len(s) % blocksize: s = (blocksize - len(s) % blocksize) * '\000' + s`. -/
def pad_to_blocksize (blocksize : Nat) (s : List Nat) : List Nat :=
  if blocksize > 0 && s.length % blocksize != 0 then
    List.replicate (blocksize - s.length % blocksize) 0 ++ s
  else s

/-- `long_to_bytes(n, blocksize)`: big-endian bytes of `n` with leading
zero bytes stripped (a single zero byte when `n == 0`), then left-padded
with zero bytes to a multiple of `blocksize` when `blocksize > 0`. -/
def long_to_bytes (n : Nat) (blocksize : Nat) : List Nat :=
  pad_to_blocksize blocksize (strip_or_zero (long_to_bytes_loop n))

/-! ## `bit_count` / `byte_count` (pyoauth/crypto/utils/__init__.py, lines 154-187) -/

/-- The hexadecimal digit sequence of `n`, most significant digit first
(the digits of `"%x" % n`; the leading digit is nonzero for `n > 0`).
Structural recursion on a fuel counter so that the definition reduces in
the kernel; the fuel argument is irrelevant whenever it is at least `n`
(`toHexF_congr`). -/
def toHexF : Nat → Nat → List Nat
  | 0, n => [n]
  | fuel + 1, n => if n < 16 then [n] else toHexF fuel (n / 16) ++ [n % 16]

def toHexAux (n : Nat) : List Nat :=
  toHexF n n

theorem toHexF_zero (f : Nat) : toHexF f 0 = [0] := by
  cases f <;> rfl

theorem toHexF_congr :
    ∀ (f1 f2 n : Nat), n ≤ f1 → n ≤ f2 → toHexF f1 n = toHexF f2 n
  | 0, f2, n, h1, _ => by
    have hn : n = 0 := by omega
    subst hn
    rw [toHexF_zero, toHexF_zero]
  | g1 + 1, 0, n, _, h2 => by
    have hn : n = 0 := by omega
    subst hn
    rw [toHexF_zero, toHexF_zero]
  | g1 + 1, g2 + 1, n, h1, h2 => by
    rw [toHexF, toHexF]
    by_cases h16 : n < 16
    · rw [if_pos h16, if_pos h16]
    · rw [if_neg h16, if_neg h16]
      have hdiv : n / 16 < n := Nat.div_lt_self (by omega) (by norm_num)
      rw [toHexF_congr g1 g2 (n / 16) (by omega) (by omega)]

theorem toHexAux_lt (n : Nat) (h : n < 16) : toHexAux n = [n] := by
  unfold toHexAux
  cases n with
  | zero => rfl
  | succ m => rw [toHexF, if_pos h]

theorem toHexAux_ge (n : Nat) (h : 16 ≤ n) :
    toHexAux n = toHexAux (n / 16) ++ [n % 16] := by
  obtain ⟨m, rfl⟩ : ∃ m, n = m + 1 := ⟨n - 1, by omega⟩
  show toHexF (m + 1) (m + 1) = _
  rw [toHexF, if_neg (by omega)]
  have hdiv : (m + 1) / 16 < m + 1 := Nat.div_lt_self (by omega) (by norm_num)
  rw [toHexF_congr m ((m + 1) / 16) ((m + 1) / 16) (by omega) (by omega)]
  rfl

/-- The digit sequence of `"%x" % n` (Python renders `0` as `"0"`). -/
def toHex (n : Nat) : List Nat :=
  if n = 0 then [0] else toHexAux n

/-- The dictionary of `bit_count` mapping the leading hex digit to the
number of bits it contributes. -/
def hexDigitBits (d : Nat) : Nat :=
  if d = 0 then 0
  else if d = 1 then 1
  else if d ≤ 3 then 2
  else if d ≤ 7 then 3
  else 4

/-- `bit_count(n)`: `0` for `n == 0`, otherwise
`(len("%x" % n) - 1) * 4 + table[first digit]`. -/
def bit_count (n : Nat) : Nat :=
  if n = 0 then 0
  else (toHex n).length.pred * 4 + hexDigitBits ((toHex n).headD 0)

/-- `byte_count(n)`: `0` for `n == 0`, otherwise
`int(math.ceil(bits / 8.0))`.  The float division by `8.0` is exact for
every bit count that fits in a 53-bit mantissa, so the ceiling is the
exact integer ceiling, modelled as `(bits + 7) / 8`. -/
def byte_count (n : Nat) : Nat :=
  if n = 0 then 0
  else (bit_count n + 7) / 8

end PyOAuth

namespace PyOAuth

/-! ## Lemmas about the big-endian fold -/

theorem beval_foldl (s : List Nat) (acc : Nat) :
    s.foldl (fun a b => a * 256 + b) acc = acc * 256 ^ s.length + beval s := by
  induction s generalizing acc with
  | nil => simp [beval]
  | cons x t ih =>
    simp only [List.foldl_cons, List.length_cons, beval]
    rw [ih (acc * 256 + x), ih (0 * 256 + x)]
    ring

theorem beval_cons (x : Nat) (t : List Nat) :
    beval (x :: t) = x * 256 ^ t.length + beval t := by
  simp only [beval, List.foldl_cons]
  simpa [beval] using beval_foldl t x

theorem beval_append (s t : List Nat) :
    beval (s ++ t) = beval s * 256 ^ t.length + beval t := by
  simp only [beval, List.foldl_append]
  rw [beval_foldl t (List.foldl (fun a b => a * 256 + b) 0 s)]
  rfl

theorem beval_zero_cons (t : List Nat) : beval (0 :: t) = beval t := by
  simp [beval_cons]

theorem beval_replicate_zero (k : Nat) (t : List Nat) :
    beval (List.replicate k 0 ++ t) = beval t := by
  induction k with
  | zero => simp
  | succ m ih => simpa [List.replicate_succ, beval_zero_cons] using ih

theorem beval_dropWhile_zero (s : List Nat) :
    beval (s.dropWhile (fun b => b == 0)) = beval s := by
  induction s with
  | nil => rfl
  | cons x t ih =>
    by_cases hx : x = 0
    · subst hx; simpa [List.dropWhile, beval_zero_cons] using ih
    · have hx' : (x == 0) = false := by simpa using hx
      simp [List.dropWhile, hx']

theorem beval_lt (s : List Nat) (h : ∀ x ∈ s, x < 256) :
    beval s < 256 ^ s.length := by
  induction s with
  | nil => simp [beval]
  | cons x t ih =>
    have hx : x < 256 := h x (by simp)
    have ht := ih (fun y hy => h y (by simp [hy]))
    rw [beval_cons]
    calc x * 256 ^ t.length + beval t
        < x * 256 ^ t.length + 256 ^ t.length := by omega
      _ = (x + 1) * 256 ^ t.length := by ring
      _ ≤ 256 * 256 ^ t.length := by
          exact Nat.mul_le_mul_right _ (by omega)
      _ = 256 ^ (x :: t).length := by rw [List.length_cons]; ring

theorem beval_head_pos (x : Nat) (t : List Nat) (hx : x ≠ 0) :
    256 ^ t.length ≤ beval (x :: t) := by
  rw [beval_cons]
  have : 1 * 256 ^ t.length ≤ x * 256 ^ t.length :=
    Nat.mul_le_mul_right _ (by omega)
  omega

/-- Byte strings of equal length, with all entries `< 256`, are determined
by their big-endian value. -/
theorem beval_inj_of_length_eq :
    ∀ (s t : List Nat), s.length = t.length →
      (∀ x ∈ s, x < 256) → (∀ x ∈ t, x < 256) →
      beval s = beval t → s = t
  | [], [], _, _, _, _ => rfl
  | [], _ :: _, h, _, _, _ => by simp at h
  | _ :: _, [], h, _, _, _ => by simp at h
  | a :: s, b :: t, hlen, hs, ht, hval => by
    have hst : s.length = t.length := by simpa using hlen
    have ha : a < 256 := hs a (by simp)
    have hb : b < 256 := ht b (by simp)
    have hs' : ∀ x ∈ s, x < 256 := fun y hy => hs y (by simp [hy])
    have ht' : ∀ x ∈ t, x < 256 := fun y hy => ht y (by simp [hy])
    have hsl := beval_lt s hs'
    have htl := beval_lt t ht'
    rw [beval_cons, beval_cons, hst] at hval
    have hab : a = b := by
      rcases Nat.lt_trichotomy a b with h | h | h
      · exfalso
        rw [hst] at hsl
        have hle : (a + 1) * 256 ^ t.length ≤ b * 256 ^ t.length :=
          Nat.mul_le_mul_right _ (by omega)
        have hexp : (a + 1) * 256 ^ t.length = a * 256 ^ t.length + 256 ^ t.length := by
          ring
        linarith
      · exact h
      · exfalso
        rw [hst] at hsl
        have hle : (b + 1) * 256 ^ t.length ≤ a * 256 ^ t.length :=
          Nat.mul_le_mul_right _ (by omega)
        have hexp : (b + 1) * 256 ^ t.length = b * 256 ^ t.length + 256 ^ t.length := by
          ring
        linarith
    subst hab
    have hrest : beval s = beval t := by
      have := hval
      omega
    have := beval_inj_of_length_eq s t hst hs' ht' hrest
    rw [this]

/-- Byte strings with a nonzero leading byte, all entries `< 256`, are
determined by their big-endian value. -/
theorem beval_inj_no_leading_zero (s t : List Nat)
    (hs0 : s ≠ []) (ht0 : t ≠ [])
    (hsh : s.headD 0 ≠ 0) (hth : t.headD 0 ≠ 0)
    (hs : ∀ x ∈ s, x < 256) (ht : ∀ x ∈ t, x < 256)
    (hval : beval s = beval t) : s = t := by
  match s, t with
  | a :: s, b :: t =>
    have ha : a ≠ 0 := by simpa using hsh
    have hb : b ≠ 0 := by simpa using hth
    have hlen : s.length = t.length := by
      rcases Nat.lt_trichotomy s.length t.length with h | h | h
      · exfalso
        have h1 : beval (a :: s) < 256 ^ (s.length + 1) := by
          simpa [List.length_cons] using beval_lt (a :: s) hs
        have h2 : 256 ^ t.length ≤ beval (b :: t) := beval_head_pos b t hb
        have h3 : (256 : Nat) ^ (s.length + 1) ≤ 256 ^ t.length :=
          Nat.pow_le_pow_right (by norm_num) (by omega)
        omega
      · exact h
      · exfalso
        have h1 : beval (b :: t) < 256 ^ (t.length + 1) := by
          simpa [List.length_cons] using beval_lt (b :: t) ht
        have h2 : 256 ^ s.length ≤ beval (a :: s) := beval_head_pos a s ha
        have h3 : (256 : Nat) ^ (t.length + 1) ≤ 256 ^ s.length :=
          Nat.pow_le_pow_right (by norm_num) (by omega)
        omega
    exact beval_inj_of_length_eq (a :: s) (b :: t) (by simp [hlen]) hs ht hval

/-! ## `bytes_to_long` computes the big-endian value -/

theorem bytes_to_long_aux_eq :
    ∀ (s : List Nat) (acc : Nat), s.length % 4 = 0 →
      bytes_to_long_aux s acc = s.foldl (fun a b => a * 256 + b) acc
  | [], acc, _ => by simp [bytes_to_long_aux]
  | [a], _, h => by simp at h
  | [a, b], _, h => by simp at h
  | [a, b, c], _, h => by simp at h
  | a :: b :: c :: d :: rest, acc, h => by
    have hr : rest.length % 4 = 0 := by
      simp only [List.length_cons] at h
      omega
    have harg : acc * 2 ^ 32 + (((a * 256 + b) * 256 + c) * 256 + d)
        = ((((acc * 256 + a) * 256 + b) * 256 + c) * 256 + d) := by ring
    rw [bytes_to_long_aux, harg, bytes_to_long_aux_eq rest _ hr]
    simp only [List.foldl_cons]

theorem bytes_to_long_eq_beval (s : List Nat) : bytes_to_long s = beval s := by
  unfold bytes_to_long
  rw [bytes_to_long_aux_eq]
  · have := beval_replicate_zero ((4 - s.length % 4) % 4) s
    simpa [beval] using this
  · simp only [List.length_append, List.length_replicate]
    omega

/-! ## `long_to_bytes` round-trips through the big-endian value -/

theorem beval_pack_be32 (m : Nat) (hm : m < 2 ^ 32) :
    beval (pack_be32 m) = m := by
  simp only [pack_be32, beval, List.foldl_cons, List.foldl_nil]
  omega

theorem pack_be32_lt (m : Nat) (hm : m < 2 ^ 32) :
    ∀ x ∈ pack_be32 m, x < 256 := by
  intro x hx
  simp only [pack_be32, List.mem_cons, List.not_mem_nil, or_false] at hx
  rcases hx with rfl | rfl | rfl | rfl
  · omega
  · exact Nat.mod_lt _ (by norm_num)
  · exact Nat.mod_lt _ (by norm_num)
  · exact Nat.mod_lt _ (by norm_num)

theorem beval_long_to_bytes_loop (n : Nat) :
    beval (long_to_bytes_loop n) = n := by
  induction n using Nat.strong_induction_on with
  | _ n ih =>
    by_cases h : n = 0
    · rw [h, long_to_bytes_loop_zero]; rfl
    · rw [long_to_bytes_loop_eq n h, beval_append,
        beval_pack_be32 _ (Nat.mod_lt _ (by norm_num)),
        ih (n / 2 ^ 32) (Nat.div_lt_self (Nat.pos_of_ne_zero h) (by norm_num))]
      simp only [pack_be32, List.length_cons, List.length_nil]
      have := Nat.div_add_mod n (2 ^ 32)
      norm_num
      omega

theorem long_to_bytes_loop_lt (n : Nat) :
    ∀ x ∈ long_to_bytes_loop n, x < 256 := by
  induction n using Nat.strong_induction_on with
  | _ n ih =>
    by_cases h : n = 0
    · rw [h, long_to_bytes_loop_zero]; simp
    · rw [long_to_bytes_loop_eq n h]
      intro x hx
      rcases List.mem_append.mp hx with hx | hx
      · exact ih (n / 2 ^ 32) (Nat.div_lt_self (Nat.pos_of_ne_zero h) (by norm_num)) x hx
      · exact pack_be32_lt _ (Nat.mod_lt _ (by norm_num)) x hx

theorem beval_pad_to_blocksize (k : Nat) (s : List Nat) :
    beval (pad_to_blocksize k s) = beval s := by
  unfold pad_to_blocksize
  by_cases hb : k > 0 && s.length % k != 0
  · rw [if_pos hb, beval_replicate_zero]
  · rw [if_neg hb]

theorem beval_strip_or_zero (s : List Nat) :
    beval (strip_or_zero s) = beval s := by
  unfold strip_or_zero
  by_cases he : (s.dropWhile (fun b => b == 0)).isEmpty
  · rw [if_pos he]
    have h0 : beval s = 0 := by
      rw [← beval_dropWhile_zero s, List.isEmpty_iff.mp he]
      rfl
    rw [h0]
    rfl
  · rw [if_neg he]
    exact beval_dropWhile_zero s

theorem beval_long_to_bytes (n : Nat) (blocksize : Nat) :
    beval (long_to_bytes n blocksize) = n := by
  unfold long_to_bytes
  rw [beval_pad_to_blocksize, beval_strip_or_zero, beval_long_to_bytes_loop]

/-- The inverse round-trip: `bytes_to_long(long_to_bytes(n, k)) == n`. -/
theorem bytes_to_long_long_to_bytes (n k : Nat) :
    bytes_to_long (long_to_bytes n k) = n := by
  rw [bytes_to_long_eq_beval, beval_long_to_bytes]

/-! ## The forward round-trip: `long_to_bytes` after `bytes_to_long` -/

theorem long_to_bytes_zero_blocksize (n : Nat) :
    long_to_bytes n 0 = strip_or_zero (long_to_bytes_loop n) := by
  unfold long_to_bytes pad_to_blocksize
  rw [if_neg (by simp)]

theorem mem_of_mem_dropWhile {α : Type} (p : α → Bool) :
    ∀ (l : List α) (x : α), x ∈ l.dropWhile p → x ∈ l
  | a :: t, x, hx => by
    by_cases ha : p a
    · rw [List.dropWhile_cons_of_pos ha] at hx
      exact List.mem_cons_of_mem a (mem_of_mem_dropWhile p t x hx)
    · rw [List.dropWhile_cons_of_neg ha] at hx
      exact hx

theorem dropWhile_zero_ne_nil :
    ∀ (b : List Nat), (∃ x ∈ b, x ≠ 0) →
      b.dropWhile (fun y => y == 0) ≠ []
  | c :: t, hx => by
    by_cases hc : c = 0
    · subst hc
      rw [List.dropWhile_cons_of_pos (by simp)]
      apply dropWhile_zero_ne_nil t
      obtain ⟨x, hmem, hx0⟩ := hx
      rcases List.mem_cons.mp hmem with rfl | hmem
      · exact absurd rfl hx0
      · exact ⟨x, hmem, hx0⟩
    · rw [List.dropWhile_cons_of_neg (by simpa using hc)]
      simp

theorem headD_dropWhile_zero :
    ∀ (b : List Nat), (b.dropWhile (fun y => y == 0)).headD 0 = 0 →
      b.dropWhile (fun y => y == 0) = []
  | [], _ => rfl
  | c :: t, h => by
    by_cases hc : c = 0
    · subst hc
      rw [List.dropWhile_cons_of_pos (by simp)] at h ⊢
      exact headD_dropWhile_zero t h
    · rw [List.dropWhile_cons_of_neg (by simpa using hc)] at h
      simp at h
      exact absurd h hc

theorem beval_pos (b : List Nat) (hx : ∃ x ∈ b, x ≠ 0) : 0 < beval b := by
  rw [← beval_dropWhile_zero b]
  obtain ⟨h, t, heq⟩ :=
    List.exists_cons_of_ne_nil (dropWhile_zero_ne_nil b hx)
  rw [heq]
  have hh : h ≠ 0 := by
    intro h0
    have := headD_dropWhile_zero b (by rw [heq, h0]; rfl)
    rw [heq] at this
    exact List.cons_ne_nil _ _ this
  have := beval_head_pos h t hh
  have hp : 0 < 256 ^ t.length := Nat.pos_pow_of_pos _ (by norm_num)
  omega

/-- `long_to_bytes(bytes_to_long(b), 0)` returns `b` with its leading
zero bytes removed, provided `b` contains a nonzero byte. -/
theorem long_to_bytes_bytes_to_long (b : List Nat)
    (hb : ∀ x ∈ b, x < 256) (hx : ∃ x ∈ b, x ≠ 0) :
    long_to_bytes (bytes_to_long b) 0 = b.dropWhile (fun y => y == 0) := by
  rw [bytes_to_long_eq_beval]
  set n := beval b with hn
  have hnpos : 0 < n := beval_pos b hx
  have hDb : beval (b.dropWhile (fun y => y == 0)) = n := beval_dropWhile_zero b
  have hDne : b.dropWhile (fun y => y == 0) ≠ [] := dropWhile_zero_ne_nil b hx
  have hLstrip : beval ((long_to_bytes_loop n).dropWhile (fun y => y == 0)) = n := by
    rw [beval_dropWhile_zero, beval_long_to_bytes_loop]
  have hLne : (long_to_bytes_loop n).dropWhile (fun y => y == 0) ≠ [] := by
    intro hnil
    rw [hnil] at hLstrip
    simp [beval] at hLstrip
    omega
  have hstrip_eq : strip_or_zero (long_to_bytes_loop n)
      = (long_to_bytes_loop n).dropWhile (fun y => y == 0) := by
    unfold strip_or_zero
    rw [if_neg (show ¬((long_to_bytes_loop n).dropWhile
        (fun b => b == 0)).isEmpty = true from by
      simp only [List.isEmpty_iff]
      exact hLne)]
  have hform : long_to_bytes n 0 = (long_to_bytes_loop n).dropWhile (fun y => y == 0) := by
    rw [long_to_bytes_zero_blocksize, hstrip_eq]
  rw [hform]
  apply beval_inj_no_leading_zero _ _ hLne hDne
  · intro h0
    exact hLne (headD_dropWhile_zero _ h0)
  · intro h0
    exact hDne (headD_dropWhile_zero _ h0)
  · intro x hmem
    exact long_to_bytes_loop_lt n x (mem_of_mem_dropWhile _ _ x hmem)
  · intro x hmem
    exact hb x (mem_of_mem_dropWhile _ _ x hmem)
  · rw [hLstrip, hDb]

/-! ## Length and padding shape of `long_to_bytes` (claim C4) -/

theorem pad_to_blocksize_length (k : Nat) (hk : 0 < k) (s : List Nat) :
    (pad_to_blocksize k s).length % k = 0 := by
  unfold pad_to_blocksize
  by_cases hb : s.length % k = 0
  · rw [if_neg (by simp [hb])]
    exact hb
  · rw [if_pos (by simp [hk, hb])]
    simp only [List.length_append, List.length_replicate]
    have hr : s.length % k < k := Nat.mod_lt _ hk
    have hdm : k * (s.length / k) + s.length % k = s.length := Nat.div_add_mod s.length k
    generalize hq : s.length / k = q at hdm
    have hsum : k - s.length % k + s.length = k * (q + 1) := by
      have h2 : k * (q + 1) = k * q + k := by ring
      generalize k * q = A at hdm h2
      omega
    rw [hsum, Nat.mul_mod_right]

theorem long_to_bytes_length_multiple (n k : Nat) (hk : 0 < k) :
    (long_to_bytes n k).length % k = 0 :=
  pad_to_blocksize_length k hk _

theorem long_to_bytes_left_pad (n k : Nat) :
    ∃ j, long_to_bytes n k = List.replicate j 0 ++ long_to_bytes n 0 := by
  rw [long_to_bytes_zero_blocksize]
  unfold long_to_bytes pad_to_blocksize
  by_cases hb : k > 0 && (strip_or_zero (long_to_bytes_loop n)).length % k != 0
  · exact ⟨k - (strip_or_zero (long_to_bytes_loop n)).length % k, by rw [if_pos hb]⟩
  · exact ⟨0, by rw [if_neg hb]; simp⟩

theorem bytes_to_long_nil : bytes_to_long [] = 0 := rfl

/-! ## `bit_count` counts bits (claim C5) -/

theorem toHexAux_ne_nil (n : Nat) : toHexAux n ≠ [] := by
  by_cases h : n < 16
  · rw [toHexAux_lt n h]; simp
  · rw [toHexAux_ge n (by omega)]; simp

theorem bit_count_small (n : Nat) (h1 : 1 ≤ n) (h : n < 16) :
    bit_count n = hexDigitBits n := by
  unfold bit_count toHex
  rw [if_neg (by omega), if_neg (by omega), toHexAux_lt n h]
  simp

theorem bit_count_div16 (n : Nat) (h : 16 ≤ n) :
    bit_count n = bit_count (n / 16) + 4 := by
  have hn : ¬n = 0 := by omega
  have hq : ¬n / 16 = 0 := by omega
  unfold bit_count toHex
  rw [if_neg hn, if_neg hn, if_neg hq, if_neg hq]
  obtain ⟨e, t, hE⟩ := List.exists_cons_of_ne_nil (toHexAux_ne_nil (n / 16))
  rw [toHexAux_ge n h, hE]
  simp only [List.cons_append, List.headD_cons, List.length_append,
    List.length_cons, List.length_nil, Nat.pred_eq_sub_one]
  omega

theorem hexDigitBits_bound (d : Nat) (h1 : 1 ≤ d) (h15 : d ≤ 15) :
    1 ≤ hexDigitBits d ∧ 2 ^ (hexDigitBits d - 1) ≤ d ∧ d < 2 ^ hexDigitBits d := by
  interval_cases d <;> decide

theorem bit_count_bound : ∀ n, 1 ≤ n →
    1 ≤ bit_count n ∧ 2 ^ (bit_count n - 1) ≤ n ∧ n < 2 ^ bit_count n := by
  intro n
  induction n using Nat.strong_induction_on with
  | _ n ih =>
    intro h1
    by_cases h16 : n < 16
    · rw [bit_count_small n h1 h16]
      exact hexDigitBits_bound n h1 (by omega)
    · push_neg at h16
      have hq1 : 1 ≤ n / 16 := by omega
      obtain ⟨ihb1, ihb2, ihb3⟩ := ih (n / 16) (by omega) hq1
      rw [bit_count_div16 n h16]
      refine ⟨by omega, ?_, ?_⟩
      · have hexp : 2 ^ (bit_count (n / 16) + 4 - 1)
            = 2 ^ (bit_count (n / 16) - 1) * 16 := by
          rw [show bit_count (n / 16) + 4 - 1 = (bit_count (n / 16) - 1) + 4 by omega,
            pow_add]
          norm_num
        rw [hexp]
        have hmul : 2 ^ (bit_count (n / 16) - 1) * 16 ≤ n / 16 * 16 :=
          Nat.mul_le_mul_right _ ihb2
        have hms : n / 16 * 16 ≤ n := Nat.div_mul_le_self n 16
        omega
      · have hexp : 2 ^ (bit_count (n / 16) + 4) = 2 ^ bit_count (n / 16) * 16 := by
          rw [pow_add]
          norm_num
        rw [hexp]
        have hstep : n / 16 + 1 ≤ 2 ^ bit_count (n / 16) := ihb3
        have hmul : (n / 16 + 1) * 16 ≤ 2 ^ bit_count (n / 16) * 16 :=
          Nat.mul_le_mul_right _ hstep
        omega

/-- `bit_count n` equals `floor(log2 n) + 1` for every `n > 0`. -/
theorem bit_count_eq_log2 (n : Nat) (h : 1 ≤ n) :
    bit_count n = Nat.log2 n + 1 := by
  obtain ⟨hb1, hb2, hb3⟩ := bit_count_bound n h
  have hn : n ≠ 0 := by omega
  have hle : bit_count n - 1 ≤ Nat.log2 n := (Nat.le_log2 hn).mpr hb2
  have hlt : Nat.log2 n < bit_count n := (Nat.log2_lt hn).mpr hb3
  omega

theorem bit_count_zero : bit_count 0 = 0 := rfl

theorem byte_count_zero : byte_count 0 = 0 := rfl

theorem byte_count_eq (n : Nat) (h : 1 ≤ n) :
    byte_count n = (bit_count n + 7) / 8 := by
  unfold byte_count
  rw [if_neg (by omega)]

/-! ## Base64 (semantics of Python `base64` / `binascii`)

`base64.standard_b64encode` and `base64.decodestring` (the latter is
`binascii.a2b_base64`) are the library routines used by
`pyoauth/crypto/utils/certificate.py`; `binascii.b2a_base64` is used by
`hmac_sha1_base64`.  They are embedded following CPython 2.7's
`Modules/binascii.c`. -/

def b64alphabet : List Char :=
  "ABCDEFGHIJKLMNOPQRSTUVWXYZabcdefghijklmnopqrstuvwxyz0123456789+/".toList

def b64char (n : Nat) : Char := b64alphabet.getD n 'A'

/-- Index of a character in a list, `none` when absent (the
`table_a2b_base64` lookup, restricted to the 64 alphabet characters;
the pad character is handled separately as in the C source). -/
def b64index : List Char → Char → Option Nat
  | [], _ => none
  | a :: rest, c => if c = a then some 0 else (b64index rest c).map (· + 1)

def b64val (c : Char) : Option Nat := b64index b64alphabet c

/-- `base64.standard_b64encode`: each 3-byte group becomes 4 alphabet
characters; a trailing group of 1 or 2 bytes is completed with `'='`. -/
def b64encode : List Nat → List Char
  | a :: b :: c :: rest =>
      b64char (a / 4) :: b64char (a % 4 * 16 + b / 16) ::
        b64char (b % 16 * 4 + c / 64) :: b64char (c % 64) :: b64encode rest
  | [a, b] => [b64char (a / 4), b64char (a % 4 * 16 + b / 16), b64char (b % 16 * 4), '=']
  | [a] => [b64char (a / 4), b64char (a % 4 * 16), '=', '=']
  | [] => []

/-- `binascii_find_valid`: the next character that is a base64 alphabet
character or the pad character (the C table maps `'='` to a valid entry). -/
def findValid : List Char → Option Char
  | [] => none
  | c :: rest => if c = '=' || (b64val c).isSome then some c else findValid rest

/-- The character loop of `binascii.a2b_base64` (CPython 2.7).  State:
`quad_pos` (position within the current 4-character group), `leftchar`
(pending bits), `leftbits` (number of pending bits), `acc` (output).
Invalid characters are skipped; a completed pad sequence ends the input
successfully; leftover bits at the end of input raise
`binascii.Error("Incorrect padding")`, modelled as `none`. -/
def a2bAux : List Char → Nat → Nat → Nat → List Nat → Option (List Nat)
  | [], _, _, leftbits, acc => if leftbits = 0 then some acc else none
  | c :: rest, quad_pos, leftchar, leftbits, acc =>
    if c = '=' then
      if quad_pos < 2 then a2bAux rest quad_pos leftchar leftbits acc
      else if quad_pos = 2 && !(findValid rest == some '=') then
        a2bAux rest quad_pos leftchar leftbits acc
      else some acc
    else
      match b64val c with
      | none => a2bAux rest quad_pos leftchar leftbits acc
      | some v =>
        if 8 ≤ leftbits + 6 then
          a2bAux rest ((quad_pos + 1) % 4)
            ((leftchar * 64 + v) % 2 ^ (leftbits + 6 - 8)) (leftbits + 6 - 8)
            (acc ++ [(leftchar * 64 + v) / 2 ^ (leftbits + 6 - 8) % 256])
        else a2bAux rest ((quad_pos + 1) % 4) (leftchar * 64 + v) (leftbits + 6) acc

/-- `base64.decodestring` = `binascii.a2b_base64`. -/
def a2b_base64 (s : List Char) : Option (List Nat) := a2bAux s 0 0 0 []

/-- `binascii.b2a_base64`: base64-encode and append a newline. -/
def b2a_base64 (l : List Nat) : List Char := b64encode l ++ ['\n']

/-! ## `textwrap.fill(s, 64)` for chunk-only text

On text with no whitespace (a base64 body), `textwrap.fill(s, 64)` breaks
the single long word into pieces of exactly 64 characters and joins the
resulting lines with single newlines. -/

/-- The pieces of a list, 64 elements at a time (used both for
`textwrap.fill(s, 64)` and for SHA-1's 64-byte blocks).  Structural
recursion on a fuel counter (`chunks64F_congr` shows any fuel of at least
`l.length` gives the same value). -/
def chunks64F {α : Type} : Nat → List α → List (List α)
  | _, [] => []
  | 0, l => [l]
  | fuel + 1, l => l.take 64 :: chunks64F fuel (l.drop 64)

def chunks64 {α : Type} (l : List α) : List (List α) := chunks64F l.length l

/-- Join lines with single newline separators (no trailing newline). -/
def joinLines : List (List Char) → List Char
  | [] => []
  | [l] => l
  | l :: r :: rest => l ++ '\n' :: joinLines (r :: rest)

def textwrap_fill64 (l : List Char) : List Char := joinLines (chunks64 l)

/-! ## PEM conversion (pyoauth/crypto/utils/certificate.py) -/

def CERT_PEM_HEADER : List Char := "-----BEGIN CERTIFICATE-----".toList
def CERT_PEM_FOOTER : List Char := "-----END CERTIFICATE-----".toList

/-- Python's whitespace set for `str.strip()`. -/
def isPySpace (c : Char) : Bool :=
  c = ' ' || c = '\t' || c = '\n' || c = '\r' || c = '\x0b' || c = '\x0c'

/-- `str.strip()`: remove leading and trailing whitespace. -/
def pystrip (s : List Char) : List Char :=
  ((s.dropWhile isPySpace).reverse.dropWhile isPySpace).reverse

/-- The slice `pem_cert_string.strip()[len(pem_header):-len(pem_footer)]`
(a Python slice `s[a:-b]` with `b = 0` is `s[a:0]`, the empty string). -/
def pem_body (pem_cert_string pem_header pem_footer : List Char) : List Char :=
  if pem_footer.length = 0 then []
  else ((pystrip pem_cert_string).drop pem_header.length).take
    ((pystrip pem_cert_string).length - pem_header.length - pem_footer.length)

/-- `pem_to_der(pem_cert_string, pem_header, pem_footer)`: check the
header and footer markers, slice them off the stripped text
(`strip()[len(header):-len(footer)]`), and base64-decode the remainder
with `base64.decodestring`.  The marker checks raise `ValueError`; a
decode failure propagates `binascii.Error`. -/
def pem_to_der (pem_cert_string pem_header pem_footer : List Char) :
    Except String (List Nat) :=
  if pem_header.isPrefixOf pem_cert_string then
    if pem_footer.isSuffixOf (pystrip pem_cert_string) then
      match a2b_base64 (pem_body pem_cert_string pem_header pem_footer) with
      | some bytes => .ok bytes
      | none => .error "binascii.Error: Incorrect padding"
    else .error "Invalid PEM encoding; must end with footer"
  else .error "Invalid PEM encoding; must start with header"

/-- `der_to_pem(der_cert_bytes, pem_header, pem_footer)` (the
`standard_b64encode` branch, taken on every Python providing it):
`pem_header + '\n' + textwrap.fill(standard_b64encode(der), 64) + '\n' +
pem_footer + '\n'`. -/
def der_to_pem (der_cert_bytes : List Nat) (pem_header pem_footer : List Char) :
    List Char :=
  pem_header ++ '\n' :: (textwrap_fill64 (b64encode der_cert_bytes) ++
    '\n' :: (pem_footer ++ ['\n']))

/-! ## Alphabet lemmas -/

theorem b64val_b64char_range :
    ∀ v ∈ List.range 64, b64val (b64char v) = some v := by decide

theorem b64val_b64char (v : Nat) (hv : v < 64) : b64val (b64char v) = some v :=
  b64val_b64char_range v (List.mem_range.mpr hv)

theorem b64char_mem_or_default (n : Nat) :
    b64char n ∈ b64alphabet ∨ b64char n = 'A' := by
  unfold b64char
  rcases h : b64alphabet[n]? with _ | c
  · right
    simp [List.getD_eq_getElem?_getD, h]
  · left
    have hmem := List.getElem?_mem h
    simpa [List.getD_eq_getElem?_getD, h] using hmem

theorem b64alphabet_ne_pad : ∀ c ∈ b64alphabet, c ≠ '=' := by decide

theorem b64alphabet_ne_newline : ∀ c ∈ b64alphabet, c ≠ '\n' := by decide

theorem b64char_ne_pad (n : Nat) : b64char n ≠ '=' := by
  rcases b64char_mem_or_default n with h | h
  · exact b64alphabet_ne_pad _ h
  · rw [h]; decide

theorem b64char_ne_newline (n : Nat) : b64char n ≠ '\n' := by
  rcases b64char_mem_or_default n with h | h
  · exact b64alphabet_ne_newline _ h
  · rw [h]; decide

theorem newline_not_mem_b64encode : ∀ (x : List Nat), '\n' ∉ b64encode x
  | a :: b :: c :: rest => by
    simp only [b64encode, List.mem_cons, not_or]
    refine ⟨?_, ?_, ?_, ?_, newline_not_mem_b64encode rest⟩ <;>
      exact fun h => b64char_ne_newline _ h.symm
  | [a, b] => by
    simp only [b64encode, List.mem_cons, List.not_mem_nil, or_false, not_or]
    refine ⟨?_, ?_, ?_, by decide⟩ <;> exact fun h => b64char_ne_newline _ h.symm
  | [a] => by
    simp only [b64encode, List.mem_cons, List.not_mem_nil, or_false, not_or]
    refine ⟨?_, ?_, by decide, by decide⟩ <;> exact fun h => b64char_ne_newline _ h.symm
  | [] => by simp [b64encode]

/-! ## The decoder undoes the encoder -/

theorem a2bAux_valid_step (v : Nat) (hv : v < 64) (rest : List Char)
    (qp lc lb : Nat) (acc : List Nat) :
    a2bAux (b64char v :: rest) qp lc lb acc =
      if 8 ≤ lb + 6 then
        a2bAux rest ((qp + 1) % 4) ((lc * 64 + v) % 2 ^ (lb + 6 - 8)) (lb + 6 - 8)
          (acc ++ [(lc * 64 + v) / 2 ^ (lb + 6 - 8) % 256])
      else a2bAux rest ((qp + 1) % 4) (lc * 64 + v) (lb + 6) acc := by
  rw [a2bAux, if_neg (b64char_ne_pad v), b64val_b64char v hv]

theorem a2bAux_pad_stop (rest : List Char) (lc lb : Nat) (acc : List Nat)
    (hfv : findValid rest = some '=') :
    a2bAux ('=' :: rest) 2 lc lb acc = some acc := by
  rw [a2bAux, if_pos rfl, if_neg (by omega), if_neg (by simp [hfv])]

theorem a2bAux_pad_stop3 (rest : List Char) (lc lb : Nat) (acc : List Nat) :
    a2bAux ('=' :: rest) 3 lc lb acc = some acc := by
  rw [a2bAux, if_pos rfl, if_neg (by omega), if_neg (by simp)]

theorem a2bAux_stepA (v : Nat) (hv : v < 64) (rest : List Char) (acc : List Nat) :
    a2bAux (b64char v :: rest) 0 0 0 acc = a2bAux rest 1 v 6 acc := by
  rw [a2bAux_valid_step v hv, if_neg (by norm_num)]
  norm_num

theorem a2bAux_stepB (u v : Nat) (hv : v < 64) (rest : List Char) (acc : List Nat) :
    a2bAux (b64char v :: rest) 1 u 6 acc =
      a2bAux rest 2 ((u * 64 + v) % 16) 4 (acc ++ [(u * 64 + v) / 16 % 256]) := by
  rw [a2bAux_valid_step v hv, if_pos (by norm_num)]
  have e3 : (2 : Nat) ^ (6 + 6 - 8) = 16 := rfl
  have e2 : 6 + 6 - 8 = 4 := rfl
  have e1 : (1 + 1) % 4 = 2 := rfl
  rw [e3, e2, e1]

theorem a2bAux_stepC (u v : Nat) (hv : v < 64) (rest : List Char) (acc : List Nat) :
    a2bAux (b64char v :: rest) 2 u 4 acc =
      a2bAux rest 3 ((u * 64 + v) % 4) 2 (acc ++ [(u * 64 + v) / 4 % 256]) := by
  rw [a2bAux_valid_step v hv, if_pos (by norm_num)]
  have e3 : (2 : Nat) ^ (4 + 6 - 8) = 4 := rfl
  have e2 : 4 + 6 - 8 = 2 := rfl
  have e1 : (2 + 1) % 4 = 3 := rfl
  rw [e3, e2, e1]

theorem a2bAux_stepD (u v : Nat) (hv : v < 64) (rest : List Char) (acc : List Nat) :
    a2bAux (b64char v :: rest) 3 u 2 acc =
      a2bAux rest 0 ((u * 64 + v) % 1) 0 (acc ++ [(u * 64 + v) / 1 % 256]) := by
  rw [a2bAux_valid_step v hv, if_pos (by norm_num)]
  have e3 : (2 : Nat) ^ (2 + 6 - 8) = 1 := rfl
  have e2 : 2 + 6 - 8 = 0 := rfl
  have e1 : (3 + 1) % 4 = 0 := rfl
  rw [e3, e2, e1]

theorem a2b_encode :
    ∀ (x : List Nat) (acc : List Nat), (∀ b ∈ x, b < 256) →
      a2bAux (b64encode x) 0 0 0 acc = some (acc ++ x)
  | [], acc, _ => by simp [b64encode, a2bAux]
  | [a], acc, h => by
    have ha : a < 256 := h a (by simp)
    rw [b64encode, a2bAux_stepA (a / 4) (by omega),
      a2bAux_stepB (a / 4) (a % 4 * 16) (by omega)]
    have hbyte : (a / 4 * 64 + a % 4 * 16) / 16 % 256 = a := by omega
    have hrem : (a / 4 * 64 + a % 4 * 16) % 16 = 0 := by omega
    rw [hbyte, hrem, a2bAux_pad_stop _ _ _ _ (by decide)]
  | [a, b], acc, h => by
    have ha : a < 256 := h a (by simp)
    have hb : b < 256 := h b (by simp)
    rw [b64encode, a2bAux_stepA (a / 4) (by omega),
      a2bAux_stepB (a / 4) (a % 4 * 16 + b / 16) (by omega)]
    have hbyte1 : (a / 4 * 64 + (a % 4 * 16 + b / 16)) / 16 % 256 = a := by omega
    have hrem1 : (a / 4 * 64 + (a % 4 * 16 + b / 16)) % 16 = b / 16 := by omega
    rw [hbyte1, hrem1, a2bAux_stepC (b / 16) (b % 16 * 4) (by omega)]
    have hbyte2 : (b / 16 * 64 + b % 16 * 4) / 4 % 256 = b := by omega
    rw [hbyte2, a2bAux_pad_stop3]
    simp
  | a :: b :: c :: rest, acc, h => by
    have ha : a < 256 := h a (by simp)
    have hb : b < 256 := h b (by simp)
    have hc : c < 256 := h c (by simp)
    rw [b64encode, a2bAux_stepA (a / 4) (by omega),
      a2bAux_stepB (a / 4) (a % 4 * 16 + b / 16) (by omega)]
    have hbyte1 : (a / 4 * 64 + (a % 4 * 16 + b / 16)) / 16 % 256 = a := by omega
    have hrem1 : (a / 4 * 64 + (a % 4 * 16 + b / 16)) % 16 = b / 16 := by omega
    rw [hbyte1, hrem1, a2bAux_stepC (b / 16) (b % 16 * 4 + c / 64) (by omega)]
    have hbyte2 : (b / 16 * 64 + (b % 16 * 4 + c / 64)) / 4 % 256 = b := by omega
    have hrem2 : (b / 16 * 64 + (b % 16 * 4 + c / 64)) % 4 = c / 64 := by omega
    rw [hbyte2, hrem2, a2bAux_stepD (c / 64) (c % 64) (by omega)]
    have hbyte3 : (c / 64 * 64 + c % 64) / 1 % 256 = c := by omega
    have hrem3 : (c / 64 * 64 + c % 64) % 1 = 0 := by omega
    rw [hbyte3, hrem3,
      a2b_encode rest (acc ++ [a] ++ [b] ++ [c]) (fun y hy => h y (by simp [hy]))]
    simp

theorem a2b_base64_b64encode (x : List Nat) (h : ∀ b ∈ x, b < 256) :
    a2b_base64 (b64encode x) = some x := by
  unfold a2b_base64
  rw [a2b_encode x [] h]
  rfl

/-! ## The decoder ignores newlines -/

theorem a2bAux_skip (c : Char) (hpad : c ≠ '=') (hval : b64val c = none)
    (rest : List Char) (qp lc lb : Nat) (acc : List Nat) :
    a2bAux (c :: rest) qp lc lb acc = a2bAux rest qp lc lb acc := by
  rw [a2bAux, if_neg hpad, hval]

theorem a2bAux_valid_step2 (c : Char) (v : Nat) (hpad : c ≠ '=')
    (hval : b64val c = some v) (rest : List Char)
    (qp lc lb : Nat) (acc : List Nat) :
    a2bAux (c :: rest) qp lc lb acc =
      if 8 ≤ lb + 6 then
        a2bAux rest ((qp + 1) % 4) ((lc * 64 + v) % 2 ^ (lb + 6 - 8)) (lb + 6 - 8)
          (acc ++ [(lc * 64 + v) / 2 ^ (lb + 6 - 8) % 256])
      else a2bAux rest ((qp + 1) % 4) (lc * 64 + v) (lb + 6) acc := by
  rw [a2bAux, if_neg hpad, hval]

theorem findValid_filter_newline :
    ∀ (l : List Char),
      findValid (l.filter (fun c => !(c == '\n'))) = findValid l
  | [] => rfl
  | c :: rest => by
    by_cases hc : c = '\n'
    · subst hc
      rw [List.filter_cons_of_neg (by decide), findValid, if_neg (by decide)]
      exact findValid_filter_newline rest
    · rw [List.filter_cons_of_pos (by simpa using hc), findValid, findValid]
      by_cases hv : (c = '=' || (b64val c).isSome : Bool)
      · rw [if_pos hv, if_pos hv]
      · rw [if_neg hv, if_neg hv]
        exact findValid_filter_newline rest

theorem a2bAux_filter_newline :
    ∀ (t : List Char) (qp lc lb : Nat) (acc : List Nat),
      a2bAux (t.filter (fun c => !(c == '\n'))) qp lc lb acc =
        a2bAux t qp lc lb acc
  | [], _, _, _, _ => rfl
  | c :: rest, qp, lc, lb, acc => by
    by_cases hc : c = '\n'
    · subst hc
      rw [List.filter_cons_of_neg (by decide),
        a2bAux_skip '\n' (by decide) (by decide)]
      exact a2bAux_filter_newline rest qp lc lb acc
    · rw [List.filter_cons_of_pos (by simpa using hc)]
      by_cases hpad : c = '='
      · subst hpad
        rw [a2bAux, a2bAux, if_pos rfl, if_pos rfl, findValid_filter_newline rest]
        by_cases h1 : qp < 2
        · rw [if_pos h1, if_pos h1]
          exact a2bAux_filter_newline rest qp lc lb acc
        · rw [if_neg h1, if_neg h1]
          by_cases h2 : (qp = 2 && !(findValid rest == some '=') : Bool)
          · rw [if_pos h2, if_pos h2]
            exact a2bAux_filter_newline rest qp lc lb acc
          · rw [if_neg h2, if_neg h2]
      · rcases hval : b64val c with _ | v
        · rw [a2bAux_skip c hpad hval, a2bAux_skip c hpad hval]
          exact a2bAux_filter_newline rest qp lc lb acc
        · rw [a2bAux_valid_step2 c v hpad hval, a2bAux_valid_step2 c v hpad hval]
          by_cases hlb : 8 ≤ lb + 6
          · rw [if_pos hlb, if_pos hlb]
            exact a2bAux_filter_newline rest _ _ _ _
          · rw [if_neg hlb, if_neg hlb]
            exact a2bAux_filter_newline rest _ _ _ _

theorem a2b_base64_filter_newline (t : List Char) :
    a2b_base64 t = a2b_base64 (t.filter (fun c => !(c == '\n'))) :=
  (a2bAux_filter_newline t 0 0 0 []).symm

/-! ## `textwrap.fill` pieces -/

theorem chunks64F_nil {α : Type} (f : Nat) : chunks64F f ([] : List α) = [] := by
  cases f <;> rfl

theorem chunks64F_cons (f : Nat) (x : Char) (t : List Char) :
    chunks64F (f + 1) (x :: t) =
      (x :: t).take 64 :: chunks64F f ((x :: t).drop 64) := rfl

theorem chunks64F_congr :
    ∀ (f1 f2 : Nat) (l : List Char), l.length ≤ f1 → l.length ≤ f2 →
      chunks64F f1 l = chunks64F f2 l
  | _, _, [], _, _ => by rw [chunks64F_nil, chunks64F_nil]
  | 0, _, x :: t, h1, _ => by simp at h1
  | _ + 1, 0, x :: t, _, h2 => by simp at h2
  | g1 + 1, g2 + 1, x :: t, h1, h2 => by
    rw [chunks64F_cons, chunks64F_cons]
    have hlen : (List.drop 64 (x :: t)).length = (x :: t).length - 64 :=
      List.length_drop 64 (x :: t)
    simp only [List.length_cons] at h1 h2 hlen
    rw [chunks64F_congr g1 g2 (List.drop 64 (x :: t)) (by omega) (by omega)]

theorem chunks64_nil {α : Type} : chunks64 ([] : List α) = [] := rfl

theorem chunks64_cons (x : Char) (t : List Char) :
    chunks64 (x :: t) = (x :: t).take 64 :: chunks64 ((x :: t).drop 64) := by
  unfold chunks64
  rw [show (x :: t).length = t.length + 1 from rfl, chunks64F_cons]
  have hlen : (List.drop 64 (x :: t)).length = (x :: t).length - 64 :=
    List.length_drop 64 (x :: t)
  simp only [List.length_cons] at hlen
  rw [chunks64F_congr t.length (List.drop 64 (x :: t)).length _ (by omega) le_rfl]

theorem chunks64_join_aux :
    ∀ (n : Nat) (l : List Char), l.length ≤ n → (chunks64 l).flatten = l
  | _, [], _ => rfl
  | 0, x :: t, h => by simp at h
  | n + 1, x :: t, h => by
    have hlen : (List.drop 64 (x :: t)).length = (x :: t).length - 64 :=
      List.length_drop 64 (x :: t)
    simp only [List.length_cons] at h hlen
    rw [chunks64_cons, List.flatten_cons,
      chunks64_join_aux n ((x :: t).drop 64) (by omega)]
    exact List.take_append_drop 64 (x :: t)

theorem chunks64_join (l : List Char) : (chunks64 l).flatten = l :=
  chunks64_join_aux l.length l le_rfl

theorem chunks64_length_le_aux :
    ∀ (n : Nat) (l : List Char), l.length ≤ n →
      ∀ ch ∈ chunks64 l, ch.length ≤ 64
  | _, [], _ => by intro ch hch; rw [chunks64_nil] at hch; simp at hch
  | 0, x :: t, h => by simp at h
  | n + 1, x :: t, h => by
    have hlen : (List.drop 64 (x :: t)).length = (x :: t).length - 64 :=
      List.length_drop 64 (x :: t)
    simp only [List.length_cons] at h hlen
    rw [chunks64_cons]
    intro ch hch
    rcases List.mem_cons.mp hch with rfl | hch
    · have := List.length_take 64 (x :: t)
      omega
    · exact chunks64_length_le_aux n _ (by omega) ch hch

theorem chunks64_length_le (l : List Char) :
    ∀ ch ∈ chunks64 l, ch.length ≤ 64 :=
  chunks64_length_le_aux l.length l le_rfl

theorem filter_joinLines :
    ∀ (L : List (List Char)), (∀ l ∈ L, '\n' ∉ l) →
      (joinLines L).filter (fun c => !(c == '\n')) = L.flatten
  | [], _ => rfl
  | [l], h => by
    have hl : ∀ a ∈ l, (fun c => !(c == '\n')) a = true := by
      intro a ha
      have hne : a ≠ '\n' := fun he => (h l (by simp)) (he ▸ ha)
      simpa using hne
    show l.filter (fun c => !(c == '\n')) = [l].flatten
    rw [List.filter_eq_self.mpr hl]
    simp
  | l :: r :: rest, h => by
    have hl : ∀ a ∈ l, (fun c => !(c == '\n')) a = true := by
      intro a ha
      have hne : a ≠ '\n' := fun he => (h l (by simp)) (he ▸ ha)
      simpa using hne
    show (l ++ '\n' :: joinLines (r :: rest)).filter (fun c => !(c == '\n'))
      = (l :: r :: rest).flatten
    rw [List.filter_append, List.filter_cons_of_neg (by decide),
      List.filter_eq_self.mpr hl,
      filter_joinLines (r :: rest) (fun m hm => h m (List.mem_cons_of_mem l hm))]
    rfl

theorem filter_textwrap_fill64 (l : List Char) (hl : '\n' ∉ l) :
    (textwrap_fill64 l).filter (fun c => !(c == '\n')) = l := by
  unfold textwrap_fill64
  rw [filter_joinLines (chunks64 l), chunks64_join]
  intro ch hch hnl
  exact hl (by rw [← chunks64_join l]; exact List.mem_flatten_of_mem hch hnl)

/-! ## `str.strip()` around PEM markers -/

theorem dropWhile_eq_self_of_head (l : List Char) (hl : l ≠ [])
    (hh : isPySpace (l.headD ' ') = false) : l.dropWhile isPySpace = l := by
  match l with
  | x :: t =>
    rw [List.dropWhile_cons_of_neg]
    simp only [List.headD_cons] at hh
    simp [hh]

/-- Stripping the output shape of `der_to_pem`: with a header that starts
with a non-whitespace character and a footer that ends with one, only the
final newline is removed. -/
theorem pystrip_shape (hd mid f : List Char)
    (hhne : hd ≠ []) (hhead : isPySpace (hd.headD ' ') = false)
    (hfne : f ≠ []) (hlast : isPySpace (f.getLastD ' ') = false) :
    pystrip (hd ++ (mid ++ (f ++ ['\n']))) = hd ++ (mid ++ f) := by
  obtain ⟨x, t, rfl⟩ := List.exists_cons_of_ne_nil hhne
  obtain ⟨y, ys, hfy⟩ :=
    List.exists_cons_of_ne_nil (show f.reverse ≠ [] by simpa using hfne)
  have hy : isPySpace y = false := by
    have hfeq : f = ys.reverse ++ [y] := by
      rw [← List.reverse_reverse f, hfy]
      simp
    rw [hfeq] at hlast
    simpa [List.getLastD_concat] using hlast
  unfold pystrip
  rw [dropWhile_eq_self_of_head ((x :: t) ++ (mid ++ (f ++ ['\n']))) (by simp)
    (by simpa using hhead)]
  rw [show ((x :: t) ++ (mid ++ (f ++ ['\n']))).reverse
      = '\n' :: (f.reverse ++ (mid.reverse ++ (x :: t).reverse)) by simp]
  rw [List.dropWhile_cons_of_pos (by decide), hfy]
  rw [show (y :: ys) ++ (mid.reverse ++ (x :: t).reverse)
      = y :: (ys ++ (mid.reverse ++ (x :: t).reverse)) from rfl]
  rw [List.dropWhile_cons_of_neg (by simp [hy])]
  rw [show y :: (ys ++ (mid.reverse ++ (x :: t).reverse))
      = (y :: ys) ++ (mid.reverse ++ (x :: t).reverse) from rfl, ← hfy]
  simp

/-! ## The PEM round trip (claim C1) -/

theorem pem_roundtrip (x : List Nat) (h f : List Char)
    (hx : ∀ b ∈ x, b < 256)
    (hhne : h ≠ []) (hhead : isPySpace (h.headD ' ') = false)
    (hfne : f ≠ []) (hlast : isPySpace (f.getLastD ' ') = false) :
    pem_to_der (der_to_pem x h f) h f = .ok x := by
  unfold der_to_pem
  set B := textwrap_fill64 (b64encode x) with hB
  set mid : List Char := '\n' :: (B ++ ['\n']) with hmid
  have hshape : h ++ '\n' :: (B ++ '\n' :: (f ++ ['\n']))
      = h ++ (mid ++ (f ++ ['\n'])) := by
    simp [hmid]
  rw [hshape]
  have hstrip : pystrip (h ++ (mid ++ (f ++ ['\n']))) = h ++ (mid ++ f) :=
    pystrip_shape h mid f hhne hhead hfne hlast
  have hbody : pem_body (h ++ (mid ++ (f ++ ['\n']))) h f = mid := by
    unfold pem_body
    rw [if_neg (show ¬f.length = 0 from
      fun h0 => hfne (List.eq_nil_of_length_eq_zero h0))]
    rw [hstrip, List.drop_left]
    have hcount : (h ++ (mid ++ f)).length - h.length - f.length = mid.length := by
      simp only [List.length_append]
      omega
    rw [hcount, List.take_left]
  have hfilter : mid.filter (fun c => !(c == '\n')) = b64encode x := by
    rw [hmid, List.filter_cons_of_neg (by decide), List.filter_append,
      filter_textwrap_fill64 _ (newline_not_mem_b64encode x)]
    simp
  have hdecode : a2b_base64 mid = some x := by
    rw [a2b_base64_filter_newline, hfilter, a2b_base64_b64encode x hx]
  unfold pem_to_der
  rw [if_pos (List.isPrefixOf_iff_prefix.mpr (List.prefix_append h _))]
  rw [hstrip]
  rw [if_pos (List.isSuffixOf_iff_suffix.mpr ⟨h ++ mid, by simp⟩)]
  rw [hbody, hdecode]

/-! ## The `pem_to_der` error contract (claim C3) -/

theorem headD_reverse (l : List Char) (d : Char) :
    l.reverse.headD d = l.getLastD d := by
  rw [List.headD_eq_head?_getD, List.head?_reverse, List.getLastD_eq_getLast?]

/-- A header marker with non-whitespace boundary characters survives
`strip()`: if the raw text starts with it, so does the stripped text. -/
theorem pystrip_keeps_header (hd pem : List Char)
    (hhne : hd ≠ []) (hhead : isPySpace (hd.headD ' ') = false)
    (hlast : isPySpace (hd.getLastD ' ') = false)
    (hpre : hd <+: pem) : hd <+: pystrip pem := by
  obtain ⟨r, rfl⟩ := hpre
  obtain ⟨x, t, rfl⟩ := List.exists_cons_of_ne_nil hhne
  unfold pystrip
  rw [dropWhile_eq_self_of_head ((x :: t) ++ r) (by simp) (by simpa using hhead)]
  rw [List.reverse_append, List.dropWhile_append]
  by_cases he : (r.reverse.dropWhile isPySpace).isEmpty
  · rw [if_pos he]
    rw [dropWhile_eq_self_of_head ((x :: t).reverse) (by simp)
      (by rw [headD_reverse]; exact hlast)]
    simp
  · rw [if_neg he]
    rw [List.reverse_append, List.reverse_reverse]
    exact List.prefix_append _ _

/-- The error contract of `pem_to_der`: it fails whenever the stripped
text does not start with the header, whenever the stripped text does not
end with the footer, and whenever the base64 decoder rejects the sliced
body; a successful return always carries the decoded body. -/
theorem pem_to_der_contract (pem hd f : List Char)
    (hhne : hd ≠ []) (hhead : isPySpace (hd.headD ' ') = false)
    (hlast : isPySpace (hd.getLastD ' ') = false) :
    (¬hd <+: pystrip pem → (pem_to_der pem hd f).isOk = false) ∧
    (¬f <:+ pystrip pem → (pem_to_der pem hd f).isOk = false) ∧
    (a2b_base64 (pem_body pem hd f) = none →
      (pem_to_der pem hd f).isOk = false) ∧
    (∀ bytes, pem_to_der pem hd f = .ok bytes →
      a2b_base64 (pem_body pem hd f) = some bytes) := by
  refine ⟨?_, ?_, ?_, ?_⟩
  · intro hnp
    unfold pem_to_der
    rw [if_neg (show ¬(hd.isPrefixOf pem : Bool) = true by
      rw [List.isPrefixOf_iff_prefix]
      intro hp
      exact hnp (pystrip_keeps_header hd pem hhne hhead hlast hp))]
    rfl
  · intro hns
    unfold pem_to_der
    by_cases hp : (hd.isPrefixOf pem : Bool) = true
    · rw [if_pos hp, if_neg (show ¬(f.isSuffixOf (pystrip pem) : Bool) = true by
        rw [List.isSuffixOf_iff_suffix]
        exact hns)]
      rfl
    · rw [if_neg hp]
      rfl
  · intro hdec
    unfold pem_to_der
    by_cases hp : (hd.isPrefixOf pem : Bool) = true
    · by_cases hs : (f.isSuffixOf (pystrip pem) : Bool) = true
      · rw [if_pos hp, if_pos hs, hdec]
        rfl
      · rw [if_pos hp, if_neg hs]
        rfl
    · rw [if_neg hp]
      rfl
  · intro bytes hok
    unfold pem_to_der at hok
    by_cases hp : (hd.isPrefixOf pem : Bool) = true
    · by_cases hs : (f.isSuffixOf (pystrip pem) : Bool) = true
      · rw [if_pos hp, if_pos hs] at hok
        rcases hdec : a2b_base64 (pem_body pem hd f) with _ | b
        · rw [hdec] at hok
          simp at hok
        · rw [hdec] at hok
          simp at hok
          rw [hok]
      · rw [if_pos hp, if_neg hs] at hok
        simp at hok
    · rw [if_neg hp] at hok
      simp at hok

/-! ## `der_to_pem` output format (claim C8) -/

theorem der_to_pem_shape (x : List Nat) (h f : List Char) :
    ∃ lines : List (List Char),
      der_to_pem x h f
        = h ++ '\n' :: (joinLines lines ++ '\n' :: (f ++ ['\n'])) ∧
      lines.flatten = b64encode x ∧
      ∀ line ∈ lines, line.length ≤ 64 :=
  ⟨chunks64 (b64encode x), rfl, chunks64_join _, chunks64_length_le _⟩

/-! ## SHA-1 and HMAC (semantics of Python `hashlib.sha1` and `hmac`)

`hmac_sha1_digest` in the source is `hmac.new(key, data, sha1).digest()`;
the hash and MAC primitives are standard-library code, embedded here
following FIPS 180 (for `hashlib.sha1`) and RFC 2104 with a 64-byte block
(for `hmac`). -/

/-- Left-rotation of a 32-bit word. -/
def rotl32 (n x : Nat) : Nat := (x * 2 ^ n + x / 2 ^ (32 - n)) % 2 ^ 32

/-- The 32-bit big-endian words of a byte list (4 bytes each). -/
def words32 : List Nat → List Nat
  | a :: b :: c :: d :: rest => (((a * 256 + b) * 256 + c) * 256 + d) :: words32 rest
  | _ => []

/-- The 8 big-endian bytes of a 64-bit length field. -/
def be64bytes (n : Nat) : List Nat :=
  pack_be32 (n / 2 ^ 32 % 2 ^ 32) ++ pack_be32 (n % 2 ^ 32)

/-- SHA-1 message padding: `0x80`, zeros to 56 mod 64, 64-bit bit length. -/
def sha1_pad (msg : List Nat) : List Nat :=
  msg ++ 0x80 :: (List.replicate ((119 - msg.length % 64) % 64) 0 ++
    be64bytes (8 * msg.length))

/-- Extend the 16 block words to the 80-entry message schedule. -/
def sha1_extend (w : List Nat) : List Nat :=
  (List.range 64).foldl
    (fun ws _ =>
      ws ++ [rotl32 1 (ws.getD (ws.length - 3) 0 ^^^ ws.getD (ws.length - 8) 0 ^^^
        ws.getD (ws.length - 14) 0 ^^^ ws.getD (ws.length - 16) 0)])
    w

/-- The SHA-1 round function. -/
def sha1_f (i b c d : Nat) : Nat :=
  if i < 20 then b &&& c ||| (b ^^^ 0xffffffff) &&& d
  else if i < 40 then b ^^^ c ^^^ d
  else if i < 60 then b &&& c ||| b &&& d ||| c &&& d
  else b ^^^ c ^^^ d

/-- The SHA-1 round constants. -/
def sha1_K (i : Nat) : Nat :=
  if i < 20 then 0x5a827999
  else if i < 40 then 0x6ed9eba1
  else if i < 60 then 0x8f1bbcdc
  else 0xca62c1d6

/-- One 64-byte block of SHA-1 compression. -/
def sha1_compress (h : Nat × Nat × Nat × Nat × Nat) (block : List Nat) :
    Nat × Nat × Nat × Nat × Nat :=
  let w := sha1_extend (words32 block)
  let st := (List.range 80).foldl
    (fun st i =>
      let temp := (rotl32 5 st.1 + sha1_f i st.2.1 st.2.2.1 st.2.2.2.1 +
        st.2.2.2.2 + sha1_K i + w.getD i 0) % 2 ^ 32
      (temp, st.1, rotl32 30 st.2.1, st.2.2.1, st.2.2.2.1))
    h
  ((h.1 + st.1) % 2 ^ 32, (h.2.1 + st.2.1) % 2 ^ 32,
    (h.2.2.1 + st.2.2.1) % 2 ^ 32, (h.2.2.2.1 + st.2.2.2.1) % 2 ^ 32,
    (h.2.2.2.2 + st.2.2.2.2) % 2 ^ 32)

/-- `hashlib.sha1(msg).digest()`: the 20-byte SHA-1 digest. -/
def sha1_digest (msg : List Nat) : List Nat :=
  let hs := (chunks64 (sha1_pad msg)).foldl sha1_compress
    (0x67452301, 0xefcdab89, 0x98badcfe, 0x10325476, 0xc3d2e1f0)
  pack_be32 hs.1 ++ pack_be32 hs.2.1 ++ pack_be32 hs.2.2.1 ++
    pack_be32 hs.2.2.2.1 ++ pack_be32 hs.2.2.2.2

/-- `hmac.new(key, data, sha1).digest()`: keys longer than the 64-byte
block are hashed first; the key is zero-padded to 64 bytes; inner pad
`0x36`, outer pad `0x5c`. -/
def hmac_sha1_digest (key data : List Nat) : List Nat :=
  sha1_digest
    (((if 64 < key.length then sha1_digest key else key) ++
        List.replicate (64 - (if 64 < key.length then sha1_digest key else key).length) 0).map
        (fun b => b ^^^ 0x5c) ++
      sha1_digest
        (((if 64 < key.length then sha1_digest key else key) ++
            List.replicate (64 - (if 64 < key.length then sha1_digest key else key).length) 0).map
            (fun b => b ^^^ 0x36) ++ data))

/-- `hmac_sha1_base64(key, data)` (pyoauth/crypto/utils/__init__.py,
lines 101-112): `binascii.b2a_base64(digest)[:-1]`. -/
def hmac_sha1_base64 (key data : List Nat) : List Char :=
  (b2a_base64 (hmac_sha1_digest key data)).dropLast

theorem sha1_digest_length (msg : List Nat) : (sha1_digest msg).length = 20 := by
  unfold sha1_digest
  simp [pack_be32]

theorem hmac_sha1_digest_length (key data : List Nat) :
    (hmac_sha1_digest key data).length = 20 := by
  unfold hmac_sha1_digest
  rw [sha1_digest_length]

/-! ## `generate_random_uint_string` (pyoauth/crypto/utils/__init__.py,
lines 115-136) -/

def hexAlphabet : List Char := "0123456789abcdef".toList

/-- One lowercase hex digit character. -/
def hexChar (d : Nat) : Char := hexAlphabet.getD d '0'

/-- `binascii.b2a_hex`: two lowercase hex characters per byte. -/
def b2a_hex : List Nat → List Char
  | [] => []
  | b :: rest => hexChar (b / 16) :: hexChar (b % 16) :: b2a_hex rest

/-- The value of one hex digit character (`0` for characters that cannot
occur in `b2a_hex` output). -/
def hexCharVal (c : Char) : Nat := (b64index hexAlphabet c).getD 0

/-- `int(s, 16)` on a hex-digit string. -/
def int16 (s : List Char) : Nat := s.foldl (fun a c => a * 16 + hexCharVal c) 0

/-- The decimal digit characters of `n`, most significant first (the
digits of `str(n)`).  Structural recursion on a fuel counter
(`decimalDigitsF_congr`). -/
def decimalDigitsF : Nat → Nat → List Char
  | 0, n => [Nat.digitChar n]
  | fuel + 1, n =>
      if n < 10 then [Nat.digitChar n]
      else decimalDigitsF fuel (n / 10) ++ [Nat.digitChar (n % 10)]

def decimalDigits (n : Nat) : List Char := decimalDigitsF n n

/-- `generate_random_uint_string(bit_strength, decimal)`.  Modelled from
the spec where the repository snapshot lacks the code: the random source
`generate_random_bytes` (module `pyoauth.crypto.utils.random`, absent
from the snapshot; the spec requires `random_bytes(n)` to return `n`
cryptographically random bytes) is injected as a function `src` from a
byte count to the bytes produced, and `bytes(int_value)` (module
`pyoauth.types`, also absent; per the spec the result is the "decimal
string of a random unsigned integer") renders the decimal
representation.  The validation and the hex pipeline follow the source:
`if bit_strength % 8 or bit_strength <= 0: raise ValueError(...)`,
`value = binascii.b2a_hex(generate_random_bytes(bit_strength / 8))`,
`if decimal: value = bytes(int(value, 16))`. -/
def generate_random_uint_string (bit_strength : Int)
    (src : Nat → List Nat) (decimal : Bool) : Except String (List Char) :=
  if bit_strength % 8 ≠ 0 ∨ bit_strength ≤ 0 then
    .error "ValueError: This function expects a bit strength."
  else
    if decimal then .ok (decimalDigits (int16 (b2a_hex (src (bit_strength / 8).toNat))))
    else .ok (b2a_hex (src (bit_strength / 8).toNat))

/-! ## The Attribute-Exchange namespace loop
(pyoauth/appengine/openid.py, lines 193-197) -/

/-- Names bound at module level in `pyoauth/appengine/openid.py`: the
imported names and the class statement. -/
def openidModuleNames : List (List Char) :=
  ["logging".toList, "urlencode".toList, "select_dict".toList,
   "map_dict".toList, "urljoin".toList, "url_add_query".toList,
   "RequestAdapter".toList, "CONTENT_TYPE_FORM_URLENCODED".toList,
   "OpenIdMixin".toList]

/-- Local names bound inside `_on_authentication_verified` by the time
the Attribute-Exchange loop runs. -/
def onAuthVerifiedLocalNames : List (List Char) :=
  ["self".toList, "callback".toList, "response".toList,
   "request_arguments".toList, "claimed_id".toList, "ax_ns".toList,
   "name".toList, "values".toList]

/-- Attributes of the class `OpenIdMixin` (class attributes and methods);
in Python these are reachable from a method body only through
`self.`/`cls.` qualification, never as bare names. -/
def openIdMixinClassAttrNames : List (List Char) :=
  ["_OPENID_ENDPOINT".toList, "ATTRIB_EMAIL".toList, "ATTRIB_COUNTRY".toList,
   "ATTRIB_LANGUAGE".toList, "ATTRIB_USERNAME".toList,
   "ATTRIB_FIRST_NAME".toList, "ATTRIB_FULL_NAME".toList,
   "ATTRIB_LAST_NAME".toList, "SPEC_IDENTIFIER_SELECT".toList,
   "SPEC_OPENID_NS".toList, "SPEC_OAUTH_NS".toList, "SPEC_AX_NS".toList,
   "authenticate_redirect".toList, "get_authenticated_user".toList,
   "_openid_args".toList, "_on_authentication_verified".toList,
   "_get_ax_args".toList, "_get_ax_name".toList]

/-- The Python builtins referenced in the module. -/
def pythonBuiltinNames : List (List Char) :=
  ["dict".toList, "set".toList, "str".toList, "len".toList]

/-- Resolution of a bare name inside `_on_authentication_verified`:
locals, then module globals, then builtins. -/
def resolvesInOnAuthVerified (n : List Char) : Bool :=
  onAuthVerifiedLocalNames.contains n || openidModuleNames.contains n ||
    pythonBuiltinNames.contains n

/-- The loop
`for name, values in request_arguments.items(): if name.startswith("openid.ns.") and values[-1] == SPEC_AX_NS: ax_ns = name[10:]; break`
(lines 193-197).  For a matching name Python evaluates `values[-1]` (an
`IndexError` on an empty sequence), then resolves the bare name
`SPEC_AX_NS`, raising `NameError` when it is bound in no enclosing
scope. -/
def ax_ns_loop (request_arguments : List (List Char × List (List Char))) :
    Except String (Option (List Char)) :=
  match request_arguments with
  | [] => .ok none
  | (nm, values) :: rest =>
    if "openid.ns.".toList.isPrefixOf nm then
      match values.getLast? with
      | none => .error "IndexError: list index out of range"
      | some v =>
        if resolvesInOnAuthVerified "SPEC_AX_NS".toList then
          if v = "http://openid.net/srv/ax/1.0".toList then
            .ok (some (nm.drop 10))
          else ax_ns_loop rest
        else .error "NameError: name SPEC_AX_NS is not defined"
    else ax_ns_loop rest

/-! ## Decimal rendering lemmas (claim C7) -/

theorem decimalDigitsF_lt (f n : Nat) (h : n < 10) :
    decimalDigitsF f n = [Nat.digitChar n] := by
  cases f with
  | zero => rfl
  | succ g => rw [decimalDigitsF, if_pos h]

theorem decimalDigitsF_congr :
    ∀ (f1 f2 n : Nat), n ≤ f1 → n ≤ f2 →
      decimalDigitsF f1 n = decimalDigitsF f2 n
  | 0, f2, n, h1, _ => by
    have hn : n = 0 := by omega
    subst hn
    rw [decimalDigitsF_lt _ _ (by omega), decimalDigitsF_lt _ _ (by omega)]
  | g1 + 1, 0, n, _, h2 => by
    have hn : n = 0 := by omega
    subst hn
    rw [decimalDigitsF_lt _ _ (by omega), decimalDigitsF_lt _ _ (by omega)]
  | g1 + 1, g2 + 1, n, h1, h2 => by
    by_cases h10 : n < 10
    · rw [decimalDigitsF_lt _ _ h10, decimalDigitsF_lt _ _ h10]
    · rw [decimalDigitsF, decimalDigitsF, if_neg h10, if_neg h10]
      have hdiv : n / 10 < n := Nat.div_lt_self (by omega) (by norm_num)
      rw [decimalDigitsF_congr g1 g2 (n / 10) (by omega) (by omega)]

theorem decimalDigits_lt (n : Nat) (h : n < 10) :
    decimalDigits n = [Nat.digitChar n] :=
  decimalDigitsF_lt n n h

theorem decimalDigits_ge (n : Nat) (h : 10 ≤ n) :
    decimalDigits n = decimalDigits (n / 10) ++ [Nat.digitChar (n % 10)] := by
  obtain ⟨m, rfl⟩ : ∃ m, n = m + 1 := ⟨n - 1, by omega⟩
  show decimalDigitsF (m + 1) (m + 1) = _
  rw [decimalDigitsF, if_neg (by omega)]
  have hdiv : (m + 1) / 10 < m + 1 := Nat.div_lt_self (by omega) (by norm_num)
  rw [decimalDigitsF_congr m ((m + 1) / 10) ((m + 1) / 10) (by omega) le_rfl]
  rfl

/-- The numeric value of a decimal digit character. -/
def digitVal (c : Char) : Nat := c.toNat - 48

theorem digitVal_digitChar : ∀ d ∈ List.range 10,
    digitVal (Nat.digitChar d) = d ∧ Nat.digitChar d ∈ "0123456789".toList := by
  decide

/-- `decimalDigits n` really is the decimal representation: its
characters are decimal digits and they evaluate back to `n`. -/
theorem decimalDigits_spec :
    ∀ n : Nat,
      (decimalDigits n).foldl (fun a c => a * 10 + digitVal c) 0 = n ∧
      ∀ c ∈ decimalDigits n, c ∈ "0123456789".toList := by
  intro n
  induction n using Nat.strong_induction_on with
  | _ n ih =>
    by_cases h10 : n < 10
    · rw [decimalDigits_lt n h10]
      obtain ⟨hv, hd⟩ := digitVal_digitChar n (List.mem_range.mpr h10)
      constructor
      · simp [hv]
      · intro c hc
        simp only [List.mem_singleton] at hc
        subst hc
        exact hd
    · obtain ⟨ihv, ihd⟩ := ih (n / 10) (Nat.div_lt_self (by omega) (by norm_num))
      rw [decimalDigits_ge n (by omega)]
      obtain ⟨hv, hd⟩ := digitVal_digitChar (n % 10) (List.mem_range.mpr (by omega))
      constructor
      · rw [List.foldl_append, ihv]
        simp [hv]
        omega
      · intro c hc
        rcases List.mem_append.mp hc with hc | hc
        · exact ihd c hc
        · simp only [List.mem_singleton] at hc
          subst hc
          exact hd

/-! ## Hex pipeline lemmas (claims C7 and C10) -/

theorem hexCharVal_hexChar : ∀ d ∈ List.range 16,
    hexCharVal (hexChar d) = d := by decide

theorem int16_b2a_hex_aux :
    ∀ (bytes : List Nat) (acc : Nat), (∀ b ∈ bytes, b < 256) →
      (b2a_hex bytes).foldl (fun a c => a * 16 + hexCharVal c) acc
        = bytes.foldl (fun a b => a * 256 + b) acc
  | [], _, _ => rfl
  | b :: rest, acc, h => by
    have hb : b < 256 := h b (by simp)
    rw [b2a_hex]
    simp only [List.foldl_cons]
    rw [hexCharVal_hexChar (b / 16) (List.mem_range.mpr (by omega)),
      hexCharVal_hexChar (b % 16) (List.mem_range.mpr (by omega))]
    have harg : (acc * 16 + b / 16) * 16 + b % 16 = acc * 256 + b := by omega
    rw [harg, int16_b2a_hex_aux rest _ (fun y hy => h y (by simp [hy]))]

theorem int16_b2a_hex (bytes : List Nat) (h : ∀ b ∈ bytes, b < 256) :
    int16 (b2a_hex bytes) = beval bytes :=
  int16_b2a_hex_aux bytes 0 h

/-! ## The loop raises `NameError` (claim C9) -/

theorem getLast?_ne_none {α : Type} :
    ∀ (l : List α), l ≠ [] → l.getLast? ≠ none
  | [x], _ => by simp
  | x :: y :: t, _ => by
    rw [List.getLast?_cons_cons]
    exact getLast?_ne_none (y :: t) (by simp)

theorem ax_ns_loop_raises :
    ∀ (args : List (List Char × List (List Char))),
      (∀ p ∈ args, p.2 ≠ []) →
      (∃ p ∈ args, ("openid.ns.".toList.isPrefixOf p.1 : Bool)) →
      "SPEC_AX_NS".toList ∈ openIdMixinClassAttrNames ∧
      resolvesInOnAuthVerified "SPEC_AX_NS".toList = false ∧
      ax_ns_loop args = .error "NameError: name SPEC_AX_NS is not defined"
  | [], _, hex => by simp at hex
  | (nm, values) :: rest, hval, hex => by
    refine ⟨by decide, by decide, ?_⟩
    unfold ax_ns_loop
    by_cases hpre : ("openid.ns.".toList.isPrefixOf nm : Bool) = true
    · rw [if_pos hpre]
      rcases hgl : values.getLast? with _ | v
      · exact absurd hgl
          (getLast?_ne_none values (hval (nm, values) (by simp)))
      · show (if resolvesInOnAuthVerified "SPEC_AX_NS".toList then
              if v = "http://openid.net/srv/ax/1.0".toList then
                Except.ok (some (nm.drop 10))
              else ax_ns_loop rest
            else Except.error "NameError: name SPEC_AX_NS is not defined")
            = Except.error "NameError: name SPEC_AX_NS is not defined"
        rw [if_neg
          (show ¬(resolvesInOnAuthVerified "SPEC_AX_NS".toList = true) by decide)]
    · rw [if_neg hpre]
      apply (ax_ns_loop_raises rest
        (fun p hp => hval p (List.mem_cons_of_mem _ hp)) ?_).2.2
      obtain ⟨p, hp, hppre⟩ := hex
      rcases List.mem_cons.mp hp with rfl | hp
      · exact absurd hppre hpre
      · exact ⟨p, hp, hppre⟩

/-! ## Remaining support lemmas -/

theorem beval_all_zero : ∀ (b : List Nat), (∀ x ∈ b, x = 0) → beval b = 0
  | [], _ => rfl
  | x :: t, h => by
    have hx : x = 0 := h x (by simp)
    subst hx
    rw [beval_zero_cons]
    exact beval_all_zero t (fun y hy => h y (by simp [hy]))

/-- Standard base64 text in the sense the specification uses the term
(RFC 4648): groups of alphabet characters, with `=` only as trailing
padding to a multiple of four, newlines allowed between lines.  Written
from the spec's words in order to state what a *malformed* body is in
claim C3; the code's own acceptance criterion is `a2b_base64`. -/
def isStandardBase64 (s : List Char) : Bool :=
  ((s.filter (fun c => !(c == '\n'))).length % 4 == 0) &&
    ((s.filter (fun c => !(c == '\n'))).all
      (fun c => (b64val c).isSome || c == '=')) &&
    ((s.filter (fun c => !(c == '\n'))).dropWhile
        (fun c => (b64val c).isSome)).all (fun c => c == '=') &&
    (((s.filter (fun c => !(c == '\n'))).dropWhile
        (fun c => (b64val c).isSome)).length ≤ 2)

theorem hmac_sha1_base64_eq (key data : List Nat) :
    hmac_sha1_base64 key data = b64encode (hmac_sha1_digest key data) := by
  unfold hmac_sha1_base64 b2a_base64
  exact List.dropLast_concat

theorem generate_random_uint_decimal_ok (bit_strength : Int)
    (src : Nat → List Nat)
    (hk8 : bit_strength % 8 = 0) (hkpos : 0 < bit_strength)
    (hbytes : ∀ b ∈ src (bit_strength / 8).toNat, b < 256)
    (hlen : (src (bit_strength / 8).toNat).length = (bit_strength / 8).toNat) :
    generate_random_uint_string bit_strength src true
        = .ok (decimalDigits (beval (src (bit_strength / 8).toNat))) ∧
      beval (src (bit_strength / 8).toNat) < 2 ^ bit_strength.toNat := by
  constructor
  · unfold generate_random_uint_string
    rw [if_neg (by omega)]
    rw [int16_b2a_hex _ hbytes]
    rfl
  · have h1 := beval_lt _ hbytes
    rw [hlen] at h1
    have h2 : (256 : Nat) ^ (bit_strength / 8).toNat
        = 2 ^ (8 * (bit_strength / 8).toNat) := by
      rw [show (256 : Nat) = 2 ^ 8 from rfl, ← pow_mul]
    have h3 : 8 * (bit_strength / 8).toNat = bit_strength.toNat := by omega
    rw [h2, h3] at h1
    exact h1

end PyOAuth

namespace PyOAuth

/-! # The claims -/

/-- C1: PEM round-trip: for every byte string `x` and every matching
header/footer pair `(h, f)` (the PEM markers are nonempty and bounded by
non-whitespace characters), `pem_to_der(der_to_pem(x, h, f), h, f) == x`. -/
theorem claim_C1 (x : List Nat) (h f : List Char)
    (hx : ∀ b ∈ x, b < 256)
    (hhne : h ≠ []) (hhead : isPySpace (h.headD ' ') = false)
    (hfne : f ≠ []) (hlast : isPySpace (f.getLastD ' ') = false) :
    pem_to_der (der_to_pem x h f) h f = .ok x :=
  pem_roundtrip x h f hx hhne hhead hfne hlast

theorem claim_C1_witness :
    pem_to_der (der_to_pem [0, 1, 171, 255] CERT_PEM_HEADER CERT_PEM_FOOTER)
      CERT_PEM_HEADER CERT_PEM_FOOTER = .ok [0, 1, 171, 255] :=
  claim_C1 [0, 1, 171, 255] CERT_PEM_HEADER CERT_PEM_FOOTER (by decide)
    (by decide) (by decide) (by decide) (by decide)

/-- C2 counterexample: the claim as stated fails at the byte string
`[0]` — `uint_to_bytes(bytes_to_uint([0]))` is `[0]` (the source returns
the single byte `'\000'` for the value zero), not `[]`, which is `[0]`
with its leading zero bytes removed. -/
theorem claim_C2_counterexample :
    long_to_bytes (bytes_to_long [0]) 0
      ≠ List.dropWhile (fun y => y == 0) [0] := by
  decide

/-- C2 (amended): for every byte string `b` containing a nonzero byte,
`uint_to_bytes(bytes_to_uint(b))` equals `b` with its leading zero bytes
removed; for an all-zero (possibly empty) `b` it returns the single zero
byte; and conversely `bytes_to_uint(uint_to_bytes(n, k)) == n` for every
`n` and padding length `k`. -/
theorem claim_C2 :
    (∀ (b : List Nat), (∀ x ∈ b, x < 256) → (∃ x ∈ b, x ≠ 0) →
      long_to_bytes (bytes_to_long b) 0 = b.dropWhile (fun y => y == 0)) ∧
    (∀ (b : List Nat), (∀ x ∈ b, x = 0) →
      long_to_bytes (bytes_to_long b) 0 = [0]) ∧
    (∀ (n k : Nat), bytes_to_long (long_to_bytes n k) = n) := by
  refine ⟨long_to_bytes_bytes_to_long, ?_, bytes_to_long_long_to_bytes⟩
  intro b hb
  rw [bytes_to_long_eq_beval, beval_all_zero b hb]
  rfl

theorem claim_C2_witness :
    long_to_bytes (bytes_to_long [0, 7, 0]) 0
        = List.dropWhile (fun y => y == 0) [0, 7, 0] ∧
      bytes_to_long (long_to_bytes 65537 3) = 65537 :=
  ⟨claim_C2.1 [0, 7, 0] (by decide) (by decide), claim_C2.2.2 65537 3⟩

/-- C3 counterexample: the claim as stated fails — a PEM whose body `!`
is not base64 at all is not rejected: `pem_to_der` returns the empty
byte string instead of reporting the malformed input, because
`binascii.a2b_base64` silently discards invalid characters. -/
theorem claim_C3_counterexample :
    pem_to_der (CERT_PEM_HEADER ++ '\n' :: '!' :: '\n' :: CERT_PEM_FOOTER)
        CERT_PEM_HEADER CERT_PEM_FOOTER = .ok [] ∧
      isStandardBase64
        (pem_body (CERT_PEM_HEADER ++ '\n' :: '!' :: '\n' :: CERT_PEM_FOOTER)
          CERT_PEM_HEADER CERT_PEM_FOOTER) = false := by
  constructor
  · rfl
  · rfl

/-- C3 (amended): `pem_to_der` fails whenever the trimmed text does not
start with the header or does not end with the footer, and fails
(`binascii.Error`) whenever the base64 decoder rejects the sliced body
(leftover bits, "incorrect padding"); a successful return always carries
exactly the decoder's output — but bodies consisting of characters the
decoder skips are not rejected, so empty bytes can be returned for
malformed input. -/
theorem claim_C3 (pem hd f : List Char) (hhne : hd ≠ [])
    (hhead : isPySpace (hd.headD ' ') = false)
    (hlast : isPySpace (hd.getLastD ' ') = false) :
    (¬hd <+: pystrip pem → (pem_to_der pem hd f).isOk = false) ∧
    (¬f <:+ pystrip pem → (pem_to_der pem hd f).isOk = false) ∧
    (a2b_base64 (pem_body pem hd f) = none →
      (pem_to_der pem hd f).isOk = false) ∧
    (∀ bytes, pem_to_der pem hd f = .ok bytes →
      a2b_base64 (pem_body pem hd f) = some bytes) :=
  pem_to_der_contract pem hd f hhne hhead hlast

theorem claim_C3_witness :
    (pem_to_der ['x'] CERT_PEM_HEADER CERT_PEM_FOOTER).isOk = false :=
  (claim_C3 ['x'] CERT_PEM_HEADER CERT_PEM_FOOTER (by decide) (by decide)
    (by decide)).1 (by decide)

/-- C4: for every `n` and every `min_length > 0`, the length of
`uint_to_bytes(n, min_length)` is a multiple of `min_length`, obtained by
left-padding the unpadded result with zero bytes, and the big-endian
value of the result is `n`; `bytes_to_uint` of the empty byte string is
`0`. -/
theorem claim_C4 :
    (∀ (n min_length : Nat), 0 < min_length →
      (long_to_bytes n min_length).length % min_length = 0 ∧
      (∃ j, long_to_bytes n min_length
        = List.replicate j 0 ++ long_to_bytes n 0) ∧
      beval (long_to_bytes n min_length) = n) ∧
    bytes_to_long [] = 0 := by
  refine ⟨fun n k hk => ⟨long_to_bytes_length_multiple n k hk,
    long_to_bytes_left_pad n k, beval_long_to_bytes n k⟩, bytes_to_long_nil⟩

theorem claim_C4_witness :
    (long_to_bytes 300 3).length % 3 = 0 ∧
    (∃ j, long_to_bytes 300 3 = List.replicate j 0 ++ long_to_bytes 300 0) ∧
    beval (long_to_bytes 300 3) = 300 :=
  claim_C4.1 300 3 (by decide)

/-- C5: `bit_count 0 = 0` and `byte_count 0 = 0`; for every `n > 0`,
`bit_count n` is the number of bits required to represent `n`
(`floor(log2 n) + 1`) and `byte_count n` is the number of bytes required
(`ceil(bit_count n / 8)`). -/
theorem claim_C5 :
    bit_count 0 = 0 ∧ byte_count 0 = 0 ∧
    ∀ n : Nat, 0 < n →
      bit_count n = Nat.log2 n + 1 ∧ byte_count n = (bit_count n + 7) / 8 :=
  ⟨bit_count_zero, byte_count_zero,
    fun n hn => ⟨bit_count_eq_log2 n hn, byte_count_eq n hn⟩⟩

theorem claim_C5_witness :
    bit_count 1000 = Nat.log2 1000 + 1 ∧
    byte_count 1000 = (bit_count 1000 + 7) / 8 :=
  claim_C5.2.2 1000 (by decide)

/-- C6: for every key and message, `hmac_sha1_base64(key, message)` is
the standard base64 encoding of the 20-byte HMAC-SHA1 digest of the
message under the key, with the trailing newline of `b2a_base64`
stripped; the result contains no newline. -/
theorem claim_C6 (key data : List Nat) :
    hmac_sha1_base64 key data = b64encode (hmac_sha1_digest key data) ∧
    (hmac_sha1_digest key data).length = 20 ∧
    '\n' ∉ hmac_sha1_base64 key data := by
  refine ⟨hmac_sha1_base64_eq key data, hmac_sha1_digest_length key data, ?_⟩
  rw [hmac_sha1_base64_eq key data]
  exact newline_not_mem_b64encode _

/-- C7: for every accepted `bit_strength` (a positive multiple of 8) and
every behaviour of the random source returning `bit_strength/8` bytes,
`generate_random_uint_string(bit_strength)` returns the decimal-digit
string of a non-negative integer strictly below `2 ^ bit_strength` — the
big-endian value of the random bytes; the string consists of decimal
digits and evaluates back to that integer. -/
theorem claim_C7 (bit_strength : Int) (src : Nat → List Nat)
    (hk8 : bit_strength % 8 = 0) (hkpos : 0 < bit_strength)
    (hbytes : ∀ b ∈ src (bit_strength / 8).toNat, b < 256)
    (hlen : (src (bit_strength / 8).toNat).length = (bit_strength / 8).toNat) :
    ∃ n : Nat,
      generate_random_uint_string bit_strength src true
          = .ok (decimalDigits n) ∧
      n < 2 ^ bit_strength.toNat ∧
      (decimalDigits n).foldl (fun a c => a * 10 + digitVal c) 0 = n ∧
      ∀ c ∈ decimalDigits n, c ∈ "0123456789".toList := by
  obtain ⟨hok, hlt⟩ :=
    generate_random_uint_decimal_ok bit_strength src hk8 hkpos hbytes hlen
  obtain ⟨hval, hdigits⟩ := decimalDigits_spec (beval (src (bit_strength / 8).toNat))
  exact ⟨beval (src (bit_strength / 8).toNat), hok, hlt, hval, hdigits⟩

theorem claim_C7_witness :
    ∃ n : Nat,
      generate_random_uint_string 8 (fun _ => [171]) true
          = .ok (decimalDigits n) ∧
      n < 2 ^ (8 : Int).toNat ∧
      (decimalDigits n).foldl (fun a c => a * 10 + digitVal c) 0 = n ∧
      ∀ c ∈ decimalDigits n, c ∈ "0123456789".toList :=
  claim_C7 8 (fun _ => [171]) (by decide) (by decide) (by decide) (by decide)

/-- C8: `der_to_pem(d, header, footer)` is the header line, then the
standard base64 encoding of `d` wrapped into lines of at most 64
characters, then the footer and a trailing newline. -/
theorem claim_C8 (x : List Nat) (h f : List Char) :
    ∃ lines : List (List Char),
      der_to_pem x h f
        = h ++ '\n' :: (joinLines lines ++ '\n' :: (f ++ ['\n'])) ∧
      lines.flatten = b64encode x ∧
      ∀ line ∈ lines, line.length ≤ 64 :=
  der_to_pem_shape x h f

/-- C9: in `_on_authentication_verified`, for every set of request
arguments (each name carrying at least one value) containing a name that
starts with `"openid.ns."`, the namespace comparison evaluates the bare
name `SPEC_AX_NS`, which is a class attribute of `OpenIdMixin` but is
bound neither locally, nor at module level, nor as a builtin, so the
loop raises `NameError` instead of computing the namespace. -/
theorem claim_C9 (args : List (List Char × List (List Char)))
    (hvals : ∀ p ∈ args, p.2 ≠ [])
    (hns : ∃ p ∈ args, ("openid.ns.".toList.isPrefixOf p.1 : Bool)) :
    "SPEC_AX_NS".toList ∈ openIdMixinClassAttrNames ∧
    resolvesInOnAuthVerified "SPEC_AX_NS".toList = false ∧
    ax_ns_loop args = .error "NameError: name SPEC_AX_NS is not defined" :=
  ax_ns_loop_raises args hvals hns

theorem claim_C9_witness :
    ax_ns_loop [("openid.ns.ax".toList, ["http://openid.net/srv/ax/1.0".toList])]
      = .error "NameError: name SPEC_AX_NS is not defined" :=
  (claim_C9 [("openid.ns.ax".toList, ["http://openid.net/srv/ax/1.0".toList])]
    (by decide) (by decide)).2.2

/-- C10: `generate_random_uint_string` raises `ValueError` for every
`bit_strength` that is not a positive multiple of 8 (including zero and
negative values), and returns normally for every positive multiple
of 8. -/
theorem claim_C10 (bit_strength : Int) (src : Nat → List Nat)
    (decimal : Bool) :
    (¬(0 < bit_strength ∧ bit_strength % 8 = 0) →
      (generate_random_uint_string bit_strength src decimal).isOk = false) ∧
    ((0 < bit_strength ∧ bit_strength % 8 = 0) →
      ∃ s, generate_random_uint_string bit_strength src decimal = .ok s) := by
  constructor
  · intro hbad
    unfold generate_random_uint_string
    rw [if_pos (by omega)]
    rfl
  · intro hgood
    unfold generate_random_uint_string
    rw [if_neg (by omega)]
    cases decimal
    · exact ⟨_, rfl⟩
    · exact ⟨_, rfl⟩

theorem claim_C10_witness :
    (generate_random_uint_string 12 (fun _ => []) true).isOk = false ∧
    (generate_random_uint_string (-8) (fun _ => []) true).isOk = false ∧
    ∃ s, generate_random_uint_string 64 (fun _ => List.replicate 8 0) true
      = .ok s :=
  ⟨(claim_C10 12 (fun _ => []) true).1 (by decide),
   (claim_C10 (-8) (fun _ => []) true).1 (by decide),
   (claim_C10 64 (fun _ => List.replicate 8 0) true).2 (by decide)⟩

end PyOAuth
